import Mathlib

/-!
Verification of the reconciliation-and-execution ETL engine of the
`private-jets` repository (source files `src/bin/etl_legs.rs` — the v2
pipeline — and `examples/etl_legs.rs` — the v1 pipeline).

Strings from the Rust source are embedded as `List Char`; object storage
is an association list from path to content; fallible Rust code (including
`unwrap`/`expect` panics) is embedded with `Option`.
-/

/-- Storage paths and identifier strings are embedded as lists of characters. -/
abbrev Str := List Char

/-- One decimal digit as a character (`0 ≤ d ≤ 9`; other inputs unused). -/
def digitCh (d : Nat) : Char :=
  match d with
  | 0 => '0' | 1 => '1' | 2 => '2' | 3 => '3' | 4 => '4'
  | 5 => '5' | 6 => '6' | 7 => '7' | 8 => '8' | _ => '9'

/-- Inverse of `digitCh` on decimal digit characters. -/
def chDigit? (c : Char) : Option Nat :=
  if '0' ≤ c ∧ c ≤ '9' then some (c.toNat - 48) else none

/-- Fuel-driven little-endian decimal digits of `n` (fuel-structural so the
kernel can evaluate it). With `fuel ≥ n` it agrees with `Nat.digits 10 n`. -/
def natDigitsAux : Nat → Nat → List Char
  | 0, _ => []
  | _ + 1, 0 => []
  | fuel + 1, n + 1 => digitCh ((n + 1) % 10) :: natDigitsAux fuel ((n + 1) / 10)

/-- Decimal rendering of a natural number, most significant digit first
(the embedding of Rust `Display` for integers). -/
def natToStr (n : Nat) : Str :=
  if n = 0 then ['0'] else (natDigitsAux n n).reverse

/-- Effectful map over a list in the `Option` monad: `none` as soon as one
element fails (the embedding of Rust `collect::<Result<_, _>>` / of a panic
inside an iterator map). -/
def traverseOpt (f : α → Option β) : List α → Option (List β)
  | [] => some []
  | a :: l =>
    match f a with
    | none => none
    | some b => (traverseOpt f l).map (b :: ·)

/-- Parse a non-empty all-digit string as a natural number (accepts leading
zeros, as Rust integer parsing does). -/
def charsToNat? (s : Str) : Option Nat :=
  if s = [] then none
  else (traverseOpt chDigit? s).map (fun ds => Nat.ofDigits 10 ds.reverse)

/-- A calendar month: the (year, month) pair carried by a partition key.
The source stores it as a `time::Date` pinned to the first day of the month;
only the year and month components ever reach the codec. -/
structure MonthDate where
  year : Nat
  month : Nat
deriving DecidableEq, Repr

/-- A partition key: (entity identifier, calendar month). -/
abbrev PK := Str × MonthDate

/-- Modelled from the spec: `flights::serde::month_to_part` (repository code
outside `src/`) renders a month as `YYYY-MM` — the year in decimal followed
by `-` and the zero-padded two-digit month. -/
def month_to_part (d : MonthDate) : Str :=
  natToStr d.year ++ '-' :: (if d.month < 10 then '0' :: natToStr d.month else natToStr d.month)

/-- Split a string at the first occurrence of `c`; `none` when `c` is absent. -/
def splitOnceAt (c : Char) : Str → Option (Str × Str)
  | [] => none
  | x :: xs =>
    if x = c then some ([], xs)
    else (splitOnceAt c xs).map (fun p => (x :: p.1, p.2))

/-- Split a string at every occurrence of `c` (the embedding of `str::split`). -/
def splitAllAt (c : Char) : Str → List Str
  | [] => [[]]
  | x :: xs =>
    if x = c then [] :: splitAllAt c xs
    else (splitAllAt c xs).modifyHead (x :: ·)

/-- Modelled from the spec: `flights::serde::parse_month` (repository code
outside `src/`) parses `YYYY-MM` back into a month; failure embeds the panic. -/
def parse_month (s : Str) : Option MonthDate :=
  match splitOnceAt '-' s with
  | some (y, m) =>
    match charsToNat? y, charsToNat? m with
    | some yy, some mm => some ⟨yy, mm⟩
    | _, _ => none
  | none => none

/-- Modelled from the spec: `flights::serde::hive_to_map` (repository code
outside `src/`) splits a hive-style `name=value/` path fragment into its
(name, value) pairs: segments are separated by `/` and each segment is split
at its first `=`; segments without `=` contribute nothing. -/
def hive_to_map (s : Str) : List (Str × Str) :=
  (splitAllAt '/' s).filterMap (splitOnceAt '=')

/-- First value bound to `key` in a key-value list. -/
def findVal (key : Str) : List (Str × Str) → Option Str
  | [] => none
  | (k, v) :: rest => if k = key then some v else findVal key rest

/-- `static DATABASE: &str = "leg/v2/data/"` from `src/bin/etl_legs.rs`. -/
def DATABASE : Str := "leg/v2/data/".data

/-- `static DATABASE_ROOT: &str = "leg/v2/"` from `src/bin/etl_legs.rs`. -/
def DATABASE_ROOT : Str := "leg/v2/".data

/-- The literal filename ending every v2 partition path. -/
def DATAJSON : Str := "data.json".data

/-- The v2 partition-key encoder `pk_to_blob_name` of `src/bin/etl_legs.rs`:
`format!("{DATABASE}month={}/icao_number={icao}/data.json", month_to_part(month))`. -/
def pk_to_blob_name (icao : Str) (month : MonthDate) : Str :=
  DATABASE ++ "month=".data ++ month_to_part month ++ "/icao_number=".data ++ icao
    ++ "/".data ++ DATAJSON

/-- The v2 partition-key decoder `blob_name_to_pk` of `src/bin/etl_legs.rs`:
hive-decode `blob[DATABASE.len()..blob.len()-"data.json".len()]`, then look up
`icao_number` and `month` and parse the month. The source `unwrap`s each step,
so every failure is a panic, embedded as `none`. -/
def slice_between (blob : Str) (preLen sufLen : Nat) : Str :=
  (blob.drop preLen).take ((blob.drop preLen).length - sufLen)

def blob_name_to_pk (blob : Str) : Option PK :=
  match findVal "icao_number".data (hive_to_map (slice_between blob DATABASE.length DATAJSON.length)),
      findVal "month".data (hive_to_map (slice_between blob DATABASE.length DATAJSON.length)) with
  | some icao, some m => (parse_month m).map (fun d => (icao, d))
  | _, _ => none

/-- A key is valid when its entity identifier contains no path separator
(ICAO numbers are alphanumeric, so real keys satisfy this). -/
def ValidPK (pk : PK) : Prop := '/' ∉ pk.1

instance : DecidablePred ValidPK := fun pk => by
  unfold ValidPK; infer_instance

example : natToStr 2023 = ['2', '0', '2', '3'] := by decide
example : charsToNat? ['2', '0', '2', '3'] = some 2023 := by decide
example : month_to_part ⟨2023, 3⟩ = "2023-03".data := by decide
example : pk_to_blob_name "06a1eb".data ⟨2023, 3⟩
    = "leg/v2/data/month=2023-03/icao_number=06a1eb/data.json".data := by decide
example : blob_name_to_pk "leg/v2/data/month=2023-03/icao_number=06a1eb/data.json".data
    = some ("06a1eb".data, ⟨2023, 3⟩) := by decide

/-! ### Digit and month round-trip lemmas -/

theorem traverseOpt_map_some {f : β → Option α} {g : α → β} (l : List α)
    (h : ∀ a ∈ l, f (g a) = some a) : traverseOpt f (l.map g) = some l := by
  induction l with
  | nil => rfl
  | cons a t ih =>
    simp only [List.map_cons, traverseOpt, h a (by simp)]
    rw [ih (fun x hx => h x (by simp [hx]))]
    rfl

theorem traverseOpt_eq_none {f : α → Option β} {l : List α} {a : α}
    (ha : a ∈ l) (hf : f a = none) : traverseOpt f l = none := by
  induction l with
  | nil => cases ha
  | cons b t ih =>
    rcases List.mem_cons.mp ha with rfl | ht
    · simp [traverseOpt, hf]
    · unfold traverseOpt
      cases hb : f b
      · rfl
      · simp [ih ht]

theorem traverseOpt_eq_some {f : α → Option β} {g : α → β} {l : List α}
    (h : ∀ a ∈ l, f a = some (g a)) : traverseOpt f l = some (l.map g) := by
  induction l with
  | nil => rfl
  | cons a t ih =>
    simp only [traverseOpt, h a (by simp)]
    rw [ih (fun x hx => h x (by simp [hx]))]
    rfl

theorem natDigitsAux_eq (fuel : Nat) : ∀ n, n ≤ fuel →
    natDigitsAux fuel n = (Nat.digits 10 n).map digitCh := by
  induction fuel with
  | zero => intro n hn; interval_cases n; simp [natDigitsAux]
  | succ fuel ih =>
    intro n hn
    match n with
    | 0 => simp [natDigitsAux]
    | m + 1 =>
      rw [natDigitsAux, Nat.digits_def' (by norm_num) (Nat.succ_pos m), List.map_cons]
      congr 1
      exact ih _ (le_trans (Nat.le_of_lt_succ (Nat.div_lt_self (Nat.succ_pos m) (by norm_num)))
        (Nat.le_of_succ_le_succ hn))

theorem chDigit_digitCh {d : Nat} (hd : d < 10) : chDigit? (digitCh d) = some d := by
  interval_cases d <;> decide

theorem digitCh_not_special (d : Nat) :
    digitCh d ≠ '-' ∧ digitCh d ≠ '/' ∧ digitCh d ≠ '=' := by
  unfold digitCh; split <;> exact ⟨by decide, by decide, by decide⟩

theorem natToStr_mem_not_special {n : Nat} {c : Char} (hc : c ∈ natToStr n) :
    c ≠ '-' ∧ c ≠ '/' ∧ c ≠ '=' := by
  unfold natToStr at hc
  split at hc
  · rw [List.mem_singleton] at hc
    subst hc
    exact ⟨by decide, by decide, by decide⟩
  · rw [natDigitsAux_eq n n le_rfl, List.mem_reverse] at hc
    obtain ⟨d, _, rfl⟩ := List.mem_map.mp hc
    exact digitCh_not_special d

theorem charsToNat?_natToStr (n : Nat) : charsToNat? (natToStr n) = some n := by
  rcases Nat.eq_zero_or_pos n with rfl | hn
  · rfl
  · unfold natToStr charsToNat?
    rw [if_neg (Nat.pos_iff_ne_zero.mp hn)]
    have hne : (natDigitsAux n n).reverse ≠ [] := by
      rw [natDigitsAux_eq n n le_rfl]
      simp [Nat.digits_ne_nil_iff_ne_zero.mpr (Nat.pos_iff_ne_zero.mp hn)]
    rw [if_neg hne, natDigitsAux_eq n n le_rfl, ← List.map_reverse,
      traverseOpt_map_some _ (fun d hd =>
        chDigit_digitCh (Nat.digits_lt_base (by norm_num) (List.mem_reverse.mp hd)))]
    simp [Nat.ofDigits_digits]

theorem charsToNat?_cons_zero {s : Str} {n : Nat} (h : charsToNat? s = some n) :
    charsToNat? ('0' :: s) = some n := by
  unfold charsToNat? at h ⊢
  rw [if_neg (List.cons_ne_nil '0' s)]
  by_cases hs : s = []
  · rw [if_pos hs] at h; cases h
  · rw [if_neg hs] at h
    cases hds : traverseOpt chDigit? s with
    | none => rw [hds] at h; cases h
    | some ds =>
      rw [hds] at h
      simp only [Option.map_some', Option.some.injEq] at h
      have : traverseOpt chDigit? ('0' :: s) = some (0 :: ds) := by
        unfold traverseOpt
        rw [show chDigit? '0' = some 0 from rfl, hds]
        rfl
      rw [this]
      simp only [Option.map_some', Option.some.injEq, List.reverse_cons]
      rw [Nat.ofDigits_append]
      simp [← h]

theorem charsToNat?_monthPart (m : Nat) :
    charsToNat? (if m < 10 then '0' :: natToStr m else natToStr m) = some m := by
  split
  · exact charsToNat?_cons_zero (charsToNat?_natToStr m)
  · exact charsToNat?_natToStr m

theorem splitOnceAt_append {c : Char} {l₁ l₂ : Str} (h : ∀ a ∈ l₁, a ≠ c) :
    splitOnceAt c (l₁ ++ c :: l₂) = some (l₁, l₂) := by
  induction l₁ with
  | nil => simp [splitOnceAt]
  | cons a t ih =>
    simp only [List.cons_append, splitOnceAt, List.append_eq]
    rw [if_neg (h a (by simp)), ih (fun x hx => h x (by simp [hx]))]
    rfl

theorem parse_month_month_to_part (d : MonthDate) :
    parse_month (month_to_part d) = some d := by
  unfold parse_month month_to_part
  rw [splitOnceAt_append (fun a ha => (natToStr_mem_not_special ha).1)]
  simp [charsToNat?_natToStr, charsToNat?_monthPart]

theorem month_to_part_not_special {d : MonthDate} {c : Char} (hc : c ∈ month_to_part d) :
    c ≠ '/' ∧ c ≠ '=' := by
  unfold month_to_part at hc
  rcases List.mem_append.mp hc with h | h
  · exact (natToStr_mem_not_special h).2
  · rcases List.mem_cons.mp h with rfl | h
    · exact ⟨by decide, by decide⟩
    · split at h
      · rcases List.mem_cons.mp h with rfl | h
        · exact ⟨by decide, by decide⟩
        · exact (natToStr_mem_not_special h).2
      · exact (natToStr_mem_not_special h).2

/-! ### Hive path split lemmas and the v2 codec round-trip -/

theorem splitAllAt_no_sep {c : Char} {l : Str} (h : ∀ a ∈ l, a ≠ c) :
    splitAllAt c l = [l] := by
  induction l with
  | nil => rfl
  | cons a t ih =>
    unfold splitAllAt
    rw [if_neg (h a (by simp)), ih (fun x hx => h x (by simp [hx]))]
    rfl

theorem splitAllAt_append {c : Char} {l₁ l₂ : Str} (h : ∀ a ∈ l₁, a ≠ c) :
    splitAllAt c (l₁ ++ c :: l₂) = l₁ :: splitAllAt c l₂ := by
  induction l₁ with
  | nil => simp [splitAllAt]
  | cons a t ih =>
    simp only [List.cons_append, splitAllAt, List.append_eq]
    rw [if_neg (h a (by simp)), ih (fun x hx => h x (by simp [hx]))]
    cases hs : splitAllAt c (t ++ c :: l₂) with
    | nil => rw [hs] at ih; cases ih (fun x hx => h x (by simp [hx]))
    | cons u us =>
      rw [hs] at ih
      cases ih (fun x hx => h x (by simp [hx]))
      rfl

/-- Decoding an encoder-produced v2 path recovers the key (the shared
round-trip workhorse). -/
theorem decode_encode {icao : Str} (d : MonthDate) (h : '/' ∉ icao) :
    blob_name_to_pk (pk_to_blob_name icao d) = some (icao, d) := by
  have hmp : ∀ a ∈ month_to_part d, a ≠ '/' := fun a ha => (month_to_part_not_special ha).1
  have hblob : pk_to_blob_name icao d
      = DATABASE ++ (("month".data ++ '=' :: month_to_part d)
        ++ '/' :: (("icao_number".data ++ '=' :: icao) ++ '/' :: DATAJSON)) := by
    unfold pk_to_blob_name
    simp [List.append_assoc]
  have hinner : slice_between (pk_to_blob_name icao d) DATABASE.length DATAJSON.length
      = ("month".data ++ '=' :: month_to_part d)
        ++ '/' :: (("icao_number".data ++ '=' :: icao) ++ ['/']) := by
    rw [hblob]
    unfold slice_between
    rw [List.drop_left]
    have hsplit : ("month".data ++ '=' :: month_to_part d)
        ++ '/' :: (("icao_number".data ++ '=' :: icao) ++ '/' :: DATAJSON)
        = (("month".data ++ '=' :: month_to_part d)
          ++ '/' :: (("icao_number".data ++ '=' :: icao) ++ ['/'])) ++ DATAJSON := by
      simp [List.append_assoc]
    have hlen : (("month".data ++ '=' :: month_to_part d)
        ++ '/' :: (("icao_number".data ++ '=' :: icao) ++ '/' :: DATAJSON)).length - DATAJSON.length
        = (("month".data ++ '=' :: month_to_part d)
          ++ '/' :: (("icao_number".data ++ '=' :: icao) ++ ['/'])).length := by
      simp only [List.length_append, List.length_cons, DATAJSON]
      simp
      omega
    rw [hlen, hsplit, List.take_left]
  have hseg1 : ∀ a ∈ "month".data ++ '=' :: month_to_part d, a ≠ '/' := by
    intro a ha
    rcases List.mem_append.mp ha with h1 | h1
    · fin_cases h1 <;> decide
    · rcases List.mem_cons.mp h1 with rfl | h1
      · decide
      · exact hmp a h1
  have hseg2 : ∀ a ∈ "icao_number".data ++ '=' :: icao, a ≠ '/' := by
    intro a ha
    rcases List.mem_append.mp ha with h1 | h1
    · fin_cases h1 <;> decide
    · rcases List.mem_cons.mp h1 with rfl | h1
      · decide
      · exact fun hc => h (hc ▸ h1)
  have hm1 : ∀ a ∈ ("month".data : Str), a ≠ '=' := by
    intro a ha; fin_cases ha <;> decide
  have hm2 : ∀ a ∈ ("icao_number".data : Str), a ≠ '=' := by
    intro a ha; fin_cases ha <;> decide
  have hkvs : hive_to_map (("month".data ++ '=' :: month_to_part d)
      ++ '/' :: (("icao_number".data ++ '=' :: icao) ++ ['/']))
      = [("month".data, month_to_part d), ("icao_number".data, icao)] := by
    unfold hive_to_map
    rw [show (("icao_number".data ++ '=' :: icao) ++ ['/'] : Str)
        = ("icao_number".data ++ '=' :: icao) ++ '/' :: [] from by simp]
    rw [splitAllAt_append hseg1, splitAllAt_append hseg2]
    rw [show splitAllAt '/' ([] : Str) = [[]] from rfl]
    simp only [List.filterMap_cons]
    rw [splitOnceAt_append hm1, splitOnceAt_append hm2]
    rfl
  unfold blob_name_to_pk
  rw [hinner, hkvs]
  rw [show findVal "icao_number".data
      [("month".data, month_to_part d), ("icao_number".data, icao)] = some icao by
    simp [findVal]]
  rw [show findVal "month".data
      [("month".data, month_to_part d), ("icao_number".data, icao)] = some (month_to_part d) by
    simp [findVal]]
  simp [parse_month_month_to_part]

/-- The v2 encoder is injective on valid keys. -/
theorem encode_injective {icao icao' : Str} {d d' : MonthDate}
    (h : '/' ∉ icao) (h' : '/' ∉ icao')
    (he : pk_to_blob_name icao d = pk_to_blob_name icao' d') : icao = icao' ∧ d = d' := by
  have := decode_encode d h
  rw [he, decode_encode d' h'] at this
  cases this
  exact ⟨rfl, rfl⟩

/-! ### Completion scanner and reconciliation -/

/-- The completion scanner `list` of `src/bin/etl_legs.rs`: decode every blob
path returned by `client.list(DATABASE)` and collect the keys into a set.
A decode failure is a panic inside the iterator (`none`), aborting the scan. -/
def list_scan (blobs : List Str) : Option (Finset PK) :=
  (traverseOpt blob_name_to_pk blobs).map List.toFinset

/-- Modelled from the spec's words (§4.3), for contrast with `list_scan`: the
claimed scanner discards every path that fails to decode and continues,
returning the set of successfully decoded keys. -/
def list_scan_claimed (blobs : List Str) : Finset PK :=
  (blobs.filterMap blob_name_to_pk).toFinset

/-- `ready` from `main` of `src/bin/etl_legs.rs`: the keys whose raw position
data exists upstream, filtered to the required set
(`list_months_positions(...).filter(|key| required.contains(key))`). -/
def readySet (sourceMonths required : Finset PK) : Finset PK :=
  sourceMonths.filter (· ∈ required)

/-- `todo` from `main` of `src/bin/etl_legs.rs`: `ready.difference(&completed)`;
the ETL tasks of the run are built from exactly these keys. -/
def todoSet (ready completed : Finset PK) : Finset PK := ready \ completed

/-- C1: Reconciliation — with the ready set S computed from the upstream
listing and the required set R (so S ⊆ R), and the completion set C read at
the start of the run, the set of keys executed is S − C, equivalently
(S ∩ R) − C, and no key of C is executed again in the same run. -/
theorem reconciliation_executes_ready_minus_completed
    (sourceMonths required completed : Finset PK) :
    readySet sourceMonths required ⊆ required ∧
    todoSet (readySet sourceMonths required) completed
      = readySet sourceMonths required \ completed ∧
    todoSet (readySet sourceMonths required) completed
      = (readySet sourceMonths required ∩ required) \ completed ∧
    ∀ k ∈ completed, k ∉ todoSet (readySet sourceMonths required) completed := by
  have hsub : readySet sourceMonths required ⊆ required := by
    intro x hx
    exact (Finset.mem_filter.mp hx).2
  refine ⟨hsub, ?_, ?_, ?_⟩
  · unfold todoSet
    rfl
  · rw [Finset.inter_eq_left.mpr hsub]
    unfold todoSet
    rfl
  · intro k hk hmem
    exact (Finset.mem_sdiff.mp hmem).2 hk

/-- C2: codec round-trip — decoding the encoded path of a valid key recovers
the key, and re-encoding the decode of an encoder-produced path gives back
the same path. -/
theorem pk_codec_round_trip (icao : Str) (d : MonthDate) (h : ValidPK (icao, d)) :
    blob_name_to_pk (pk_to_blob_name icao d) = some (icao, d) ∧
    ∀ p, p = pk_to_blob_name icao d →
      (blob_name_to_pk p).map (fun pk => pk_to_blob_name pk.1 pk.2) = some p := by
  refine ⟨decode_encode d h, ?_⟩
  rintro p rfl
  rw [decode_encode d h]
  rfl

/-- Witness for C2 at a concrete key. -/
theorem pk_codec_round_trip_witness :
    ValidPK ("06a1eb".data, ⟨2023, 3⟩) ∧
    blob_name_to_pk (pk_to_blob_name "06a1eb".data ⟨2023, 3⟩)
      = some ("06a1eb".data, ⟨2023, 3⟩) :=
  ⟨by decide, (pk_codec_round_trip "06a1eb".data ⟨2023, 3⟩ (by decide)).1⟩

/-- C6 counterexample: a malformed path under the prefix makes `blob_name_to_pk`
panic, so the whole scan aborts (`none`) instead of discarding the entry; the
spec-claimed scanner would have returned the one good key. -/
theorem list_scan_aborts_on_malformed_path :
    blob_name_to_pk "leg/v2/data/garbage".data = none ∧
    list_scan ["leg/v2/data/month=2023-03/icao_number=06a1eb/data.json".data,
      "leg/v2/data/garbage".data] = none ∧
    list_scan_claimed ["leg/v2/data/month=2023-03/icao_number=06a1eb/data.json".data,
      "leg/v2/data/garbage".data] = {("06a1eb".data, ⟨2023, 3⟩)} :=
  ⟨by decide, by decide, by decide⟩

/-- C6 amended: the scanner lists all blob paths under the fixed prefix and
decodes each with the codec; when every path decodes it returns the set of
decoded keys, but a path that fails to decode panics and aborts the whole
listing (it is not discarded). -/
theorem list_scan_amended (blobs : List Str)
    (h : ∀ b ∈ blobs, (blob_name_to_pk b).isSome) :
    list_scan blobs = some (list_scan_claimed blobs) := by
  unfold list_scan list_scan_claimed
  have : ∀ l : List Str, (∀ b ∈ l, (blob_name_to_pk b).isSome) →
      traverseOpt blob_name_to_pk l = some (l.filterMap blob_name_to_pk) := by
    intro l hl
    induction l with
    | nil => rfl
    | cons b t ih =>
      cases hb : blob_name_to_pk b with
      | none =>
        have hcontra := hl b (by simp)
        rw [hb] at hcontra
        simp at hcontra
      | some pk =>
        simp only [traverseOpt, hb, List.filterMap_cons]
        rw [ih (fun x hx => hl x (by simp [hx]))]
        rfl
  rw [this blobs h]
  rfl

/-- Witness for C6 amended at a concrete listing. -/
theorem list_scan_amended_witness :
    list_scan ["leg/v2/data/month=2023-03/icao_number=06a1eb/data.json".data]
      = some (list_scan_claimed
        ["leg/v2/data/month=2023-03/icao_number=06a1eb/data.json".data]) :=
  list_scan_amended _ (by decide)

/-! ### Object storage model -/

/-- Blob content: either a blob that deserializes as a list of leg records,
or bytes that do not (corrupt data, foreign schema, status documents). The
leg record type `L` is abstract — the engine never inspects it. -/
inductive Content (L : Type)
  | legs (ls : List L)
  | raw
deriving DecidableEq

/-- Object storage as the engine sees it: an association list path ↦ content.
`putBlob` prepends, so the most recent write shadows older ones (per-key
atomic overwrite, as the spec assumes of the backend). -/
abbrev Store (L : Type) := List (Str × Content L)

/-- `get`: most recent content stored at `p`. -/
def getBlob : Store L → Str → Option (Content L)
  | [], _ => none
  | (q, v) :: rest, p => if q = p then some v else getBlob rest p

/-- `put`: overwrite the content at `p`. -/
def putBlob (st : Store L) (p : Str) (v : Content L) : Store L := (p, v) :: st

/-- All stored paths (duplicates harmless: scans collect into sets). -/
def paths (st : Store L) : List Str := st.map (·.1)

/-- Boolean prefix test on character lists. -/
def strHasPre (pre s : Str) : Bool :=
  match pre, s with
  | [], _ => true
  | _ :: _, [] => false
  | a :: pre, b :: s => a = b && strHasPre pre s

/-- `client.list(pre)`: every stored path starting with the prefix. -/
def listUnder (st : Store L) (pre : Str) : List Str :=
  (paths st).filter (fun p => strHasPre pre p)

theorem getBlob_putBlob_same (st : Store L) (p : Str) (v : Content L) :
    getBlob (putBlob st p v) p = some v := by
  unfold putBlob getBlob
  rw [if_pos rfl]

theorem getBlob_putBlob_other (st : Store L) {p q : Str} (h : p ≠ q) (v : Content L) :
    getBlob (putBlob st p v) q = getBlob st q := by
  show (if p = q then some v else getBlob st q) = getBlob st q
  rw [if_neg h]

theorem strHasPre_append (pre rest : Str) : strHasPre pre (pre ++ rest) = true := by
  induction pre with
  | nil => rfl
  | cons a t ih => simp [strHasPre, ih]

theorem mem_listUnder {st : Store L} {pre p : Str} :
    p ∈ listUnder st pre ↔ p ∈ paths st ∧ strHasPre pre p = true := by
  unfold listUnder
  rw [List.mem_filter]

/-- The completion scan of `src/bin/etl_legs.rs` run against a store. -/
def scanStore (st : Store L) : Option (Finset PK) :=
  list_scan (listUnder st DATABASE)

/-- A store is well-formed when every path under the v2 data area is the
encoding of some valid key — the state the engine itself maintains, since it
only ever writes encoder-produced paths. -/
def WellFormedV2 (st : Store L) : Prop :=
  ∀ p ∈ paths st, strHasPre DATABASE p = true →
    ∃ k : PK, ValidPK k ∧ p = pk_to_blob_name k.1 k.2

theorem encode_has_pre (icao : Str) (d : MonthDate) :
    strHasPre DATABASE (pk_to_blob_name icao d) = true := by
  have : pk_to_blob_name icao d = DATABASE ++ ("month=".data ++ month_to_part d
      ++ "/icao_number=".data ++ icao ++ "/".data ++ DATAJSON) := by
    unfold pk_to_blob_name
    simp [List.append_assoc]
  rw [this]
  exact strHasPre_append _ _

theorem scanStore_of_wellFormed {st : Store L} (hwf : WellFormedV2 st) :
    scanStore st = some (list_scan_claimed (listUnder st DATABASE)) := by
  apply list_scan_amended
  intro b hb
  obtain ⟨hp, hpre⟩ := mem_listUnder.mp hb
  obtain ⟨k, hk, rfl⟩ := hwf b hp hpre
  rw [decode_encode k.2 hk]
  rfl

theorem mem_scan_claimed {st : Store L} (hwf : WellFormedV2 st) {k : PK} (hk : ValidPK k) :
    k ∈ list_scan_claimed (listUnder st DATABASE)
      ↔ pk_to_blob_name k.1 k.2 ∈ paths st := by
  unfold list_scan_claimed
  rw [List.mem_toFinset, List.mem_filterMap]
  constructor
  · rintro ⟨p, hp, hdec⟩
    obtain ⟨hmem, hpre⟩ := mem_listUnder.mp hp
    obtain ⟨k', hk', rfl⟩ := hwf p hmem hpre
    rw [decode_encode k'.2 hk'] at hdec
    cases hdec
    exact hmem
  · intro hmem
    refine ⟨pk_to_blob_name k.1 k.2, mem_listUnder.mpr ⟨hmem, encode_has_pre k.1 k.2⟩, ?_⟩
    exact decode_encode k.2 hk

/-! ### The tolerant ETL execution phase (v2 `main`) -/

/-- `read::<LegOut>` of `src/bin/etl_legs.rs`: fetch and deserialize one
partition blob; an absent or non-deserializable blob is an error (`none`). -/
def read_pk (k : PK) (st : Store L) : Option (List L) :=
  match getBlob st (pk_to_blob_name k.1 k.2) with
  | some (Content.legs ls) => some ls
  | _ => none

/-- `etl_task` of `src/bin/etl_legs.rs` for one key: extract and transform are
external collaborators, abstracted by `outcome` (`none` is any extraction,
transformation or write error); on success the legs are written at the key's
encoded path — the task's single overwrite-write. -/
def etl_task (outcome : PK → Option (List L)) (st : Store L) (k : PK) : Store L :=
  match outcome k with
  | some ls => putBlob st (pk_to_blob_name k.1 k.2) (Content.legs ls)
  | none => st

/-- The primary ETL execution phase of `main` (`buffered(50).collect()` behind
`let _ =`): every task runs, each failure is discarded. Tasks write pairwise
distinct paths, so the concurrent execution is equivalent to this fold. -/
def etlPhase (outcome : PK → Option (List L)) (todo : List PK) (st : Store L) : Store L :=
  todo.foldl (etl_task outcome) st

theorem etlPhase_get_untouched (outcome : PK → Option (List L)) (todo : List PK) :
    ∀ (st : Store L) (p : Str),
      (∀ j ∈ todo, pk_to_blob_name j.1 j.2 ≠ p ∨ outcome j = none) →
      getBlob (etlPhase outcome todo st) p = getBlob st p := by
  induction todo with
  | nil => intro st p _; rfl
  | cons j t ih =>
    intro st p hj
    show getBlob (etlPhase outcome t (etl_task outcome st j)) p = getBlob st p
    rw [ih _ p (fun i hi => hj i (by simp [hi]))]
    unfold etl_task
    cases ho : outcome j with
    | none => rfl
    | some ls =>
      rcases hj j (by simp) with hne | hnone
      · exact getBlob_putBlob_other st hne _
      · rw [ho] at hnone; cases hnone

theorem etlPhase_get_written (outcome : PK → Option (List L)) (todo : List PK) :
    ∀ (st : Store L) (j : PK) (ls : List L), j ∈ todo → todo.Nodup →
      (∀ i ∈ todo, ValidPK i) → outcome j = some ls →
      getBlob (etlPhase outcome todo st) (pk_to_blob_name j.1 j.2)
        = some (Content.legs ls) := by
  induction todo with
  | nil => intro st j ls hj; cases hj
  | cons i t ih =>
    intro st j ls hj hnd hv ho
    rcases List.mem_cons.mp hj with rfl | hjt
    · show getBlob (etlPhase outcome t (etl_task outcome st j)) (pk_to_blob_name j.1 j.2)
        = some (Content.legs ls)
      have hnot : ∀ i' ∈ t, pk_to_blob_name i'.1 i'.2 ≠ pk_to_blob_name j.1 j.2
          ∨ outcome i' = none := by
        intro i' hi'
        left
        intro heq
        have hji' : i' = j := by
          obtain ⟨h1, h2⟩ := encode_injective (hv i' (by simp [hi'])) (hv j (by simp)) heq
          exact Prod.ext h1 h2
        exact (List.nodup_cons.mp hnd).1 (hji' ▸ hi')
      rw [etlPhase_get_untouched outcome t _ _ hnot]
      unfold etl_task
      rw [ho]
      exact getBlob_putBlob_same st _ _
    · exact ih _ j ls hjt (List.nodup_cons.mp hnd).2 (fun x hx => hv x (by simp [hx])) ho

theorem etlPhase_paths (outcome : PK → Option (List L)) (todo : List PK) :
    ∀ (st : Store L) (p : Str), p ∈ paths (etlPhase outcome todo st) →
      p ∈ paths st ∨ ∃ j ∈ todo, outcome j ≠ none ∧ p = pk_to_blob_name j.1 j.2 := by
  induction todo with
  | nil => intro st p hp; exact Or.inl hp
  | cons i t ih =>
    intro st p hp
    rcases ih _ p hp with hmem | ⟨j, hj, hjo, rfl⟩
    · unfold etl_task at hmem
      cases ho : outcome i with
      | none => rw [ho] at hmem; exact Or.inl hmem
      | some ls =>
        rw [ho] at hmem
        rcases List.mem_cons.mp hmem with heq | hmem
        · exact Or.inr ⟨i, by simp, by simp [ho], heq⟩
        · exact Or.inl hmem
    · exact Or.inr ⟨j, by simp [hj], hjo, rfl⟩

theorem etlPhase_wellFormed {outcome : PK → Option (List L)} {todo : List PK}
    {st : Store L} (hwf : WellFormedV2 st) (hv : ∀ i ∈ todo, ValidPK i) :
    WellFormedV2 (etlPhase outcome todo st) := by
  intro p hp hpre
  rcases etlPhase_paths outcome todo st p hp with hmem | ⟨j, hj, _, rfl⟩
  · exact hwf p hmem hpre
  · exact ⟨j, hv j hj, rfl⟩

/-- C3: tolerant ETL phase — one task's failure does not abort the batch: every
other successful task's blob is written and readable, the failed key's blob is
never written, and the failed key reappears in Todo on the next run (same
ready set, completion re-scanned from storage). -/
theorem etl_phase_tolerant (st0 : Store L) (ready : Finset PK)
    (outcome : PK → Option (List L)) (todo : List PK) (k : PK) (completed0 : Finset PK)
    (hwf : WellFormedV2 st0)
    (hvalid : ∀ j ∈ ready, ValidPK j)
    (hscan : scanStore st0 = some completed0)
    (htodo : todo.Nodup ∧ todo.toFinset = todoSet ready completed0)
    (hk : k ∈ todo) (hfail : outcome k = none) :
    (∀ j ∈ todo, j ≠ k → ∀ ls, outcome j = some ls →
      read_pk j (etlPhase outcome todo st0) = some ls) ∧
    getBlob (etlPhase outcome todo st0) (pk_to_blob_name k.1 k.2)
      = getBlob st0 (pk_to_blob_name k.1 k.2) ∧
    ∃ completed1, scanStore (etlPhase outcome todo st0) = some completed1 ∧
      k ∈ todoSet ready completed1 := by
  obtain ⟨hnd, htf⟩ := htodo
  have hmemtodo : ∀ j, j ∈ todo ↔ j ∈ todoSet ready completed0 := fun j => by
    rw [← htf, List.mem_toFinset]
  have hvtodo : ∀ j ∈ todo, ValidPK j := by
    intro j hj
    have hj' := (hmemtodo j).mp hj
    simp only [todoSet, Finset.mem_sdiff] at hj'
    exact hvalid j hj'.1
  have hkmem := (hmemtodo k).mp hk
  simp only [todoSet, Finset.mem_sdiff] at hkmem
  have hkvalid : ValidPK k := hvtodo k hk
  refine ⟨?_, ?_, ?_⟩
  · intro j hj _ ls ho
    unfold read_pk
    rw [etlPhase_get_written outcome todo st0 j ls hj hnd hvtodo ho]
  · apply etlPhase_get_untouched
    intro j hj
    by_cases hjk : j = k
    · right
      rw [hjk, hfail]
    · left
      intro heq
      obtain ⟨h1, h2⟩ := encode_injective (hvtodo j hj) hkvalid heq
      exact hjk (Prod.ext h1 h2)
  · have hwf1 : WellFormedV2 (etlPhase outcome todo st0) := etlPhase_wellFormed hwf hvtodo
    refine ⟨list_scan_claimed (listUnder (etlPhase outcome todo st0) DATABASE),
      scanStore_of_wellFormed hwf1, ?_⟩
    simp only [todoSet, Finset.mem_sdiff]
    refine ⟨hkmem.1, ?_⟩
    rw [mem_scan_claimed hwf1 hkvalid]
    intro hmem
    rcases etlPhase_paths outcome todo st0 _ hmem with hmem0 | ⟨j, hj, hjo, heq⟩
    · have h2 := scanStore_of_wellFormed hwf
      rw [hscan] at h2
      have h3 : completed0 = list_scan_claimed (listUnder st0 DATABASE) := Option.some.inj h2
      apply hkmem.2
      rw [h3, mem_scan_claimed hwf hkvalid]
      exact hmem0
    · obtain ⟨h1, h2⟩ := encode_injective hkvalid (hvtodo j hj) heq
      apply hjo
      rw [← Prod.ext h1 h2]
      exact hfail

def w3k1 : PK := ("aaa".data, ⟨2023, 1⟩)

def w3k2 : PK := ("bbb".data, ⟨2023, 1⟩)

def w3ready : Finset PK := {w3k1, w3k2}

def w3outcome : PK → Option (List Nat) := fun j => if j = w3k2 then none else some [7]

def w3todo : List PK := [w3k1, w3k2]

/-- Witness for C3 at a concrete two-key run whose second task fails. -/
theorem etl_phase_tolerant_witness :
    w3outcome w3k2 = none ∧
    ((∀ j ∈ w3todo, j ≠ w3k2 → ∀ ls, w3outcome j = some ls →
        read_pk j (etlPhase w3outcome w3todo []) = some ls) ∧
      getBlob (etlPhase w3outcome w3todo []) (pk_to_blob_name w3k2.1 w3k2.2)
        = getBlob [] (pk_to_blob_name w3k2.1 w3k2.2) ∧
      ∃ completed1, scanStore (etlPhase w3outcome w3todo []) = some completed1 ∧
        w3k2 ∈ todoSet w3ready completed1) :=
  ⟨by decide, etl_phase_tolerant [] w3ready w3outcome w3todo w3k2 ∅
    (fun p hp _ => absurd hp (List.not_mem_nil p))
    (by decide) (by decide) ⟨by decide, by decide⟩ (by decide) (by decide)⟩

/-! ### The yearly aggregator (v2 `aggregate`) -/

/-- `format!("{DATABASE_ROOT}all/year={year}/data.csv")` from `aggregate`. -/
def yearPath (y : Nat) : Str :=
  DATABASE_ROOT ++ ("all/year=".data ++ (natToStr y ++ "/data.csv".data))

/-- `format!("{DATABASE_ROOT}status.json")` from `aggregate`. -/
def statusPath : Str := DATABASE_ROOT ++ "status.json".data

/-- `completed` grouped by year in `aggregate`: the completed keys of year `y`. -/
def completedOfYear (completed : Finset PK) (y : Nat) : Finset PK :=
  completed.filter (fun k => k.2.year = y)

/-- The read-merge step of `aggregate` for one year: read every completed
partition of the year (fail-fast `try_collect`) and flatten the results —
exactly the content of the merged year blob. -/
def yearMerge (keys : List PK) (st : Store L) : Option (List L) :=
  (traverseOpt (fun k => read_pk k st) keys).map List.flatten

/-- The per-year loop of `aggregate` followed by the final status write.
For each year, read every completed partition of that year from the current
store (`try_collect` fail-fast: the first failed read aborts the run with
`?`), flatten, and write the merged year blob; after all years succeed, write
the status document. Year iteration order and per-year key order abstract the
`HashMap`/`HashSet` orders. Returns the final store and whether the run
returned Ok. -/
def aggLoop (keysOf : Nat → List PK) : List Nat → Store L → Store L × Bool
  | [], st => (putBlob st statusPath Content.raw, true)
  | y :: ys, st =>
    match yearMerge (keysOf y) st with
    | none => (st, false)
    | some legs => aggLoop keysOf ys (putBlob st (yearPath y) (Content.legs legs))

theorem yearPath_get7 (y : Nat) : (yearPath y)[7]? = some 'a' := by
  unfold yearPath
  rw [List.getElem?_append_right (by decide)]
  rw [show (7 - DATABASE_ROOT.length) = 0 from by decide]
  rfl

theorem encode_get7 (icao : Str) (d : MonthDate) :
    (pk_to_blob_name icao d)[7]? = some 'd' := by
  have : pk_to_blob_name icao d = DATABASE ++ ("month=".data ++ month_to_part d
      ++ "/icao_number=".data ++ icao ++ "/".data ++ DATAJSON) := by
    unfold pk_to_blob_name
    simp [List.append_assoc]
  rw [this, List.getElem?_append_left (by decide)]
  rfl

theorem statusPath_get7 : (statusPath : Str)[7]? = some 's' := by decide

theorem yearPath_ne_encode (y : Nat) (icao : Str) (d : MonthDate) :
    yearPath y ≠ pk_to_blob_name icao d := by
  intro h
  have h2 := congrArg (fun l : Str => l[7]?) h
  simp only at h2
  rw [yearPath_get7, encode_get7] at h2
  cases h2

theorem statusPath_ne_encode (icao : Str) (d : MonthDate) :
    statusPath ≠ pk_to_blob_name icao d := by
  intro h
  have h2 := congrArg (fun l : Str => l[7]?) h
  simp only at h2
  rw [statusPath_get7, encode_get7] at h2
  cases h2

theorem statusPath_ne_yearPath (y : Nat) : statusPath ≠ yearPath y := by
  intro h
  have h2 := congrArg (fun l : Str => l[7]?) h
  simp only at h2
  rw [statusPath_get7, yearPath_get7] at h2
  cases h2

theorem natToStr_injective {y y' : Nat} (h : natToStr y = natToStr y') : y = y' := by
  have h1 := charsToNat?_natToStr y
  rw [h, charsToNat?_natToStr y'] at h1
  exact (Option.some.inj h1).symm

theorem yearPath_injective {y y' : Nat} (h : yearPath y = yearPath y') : y = y' := by
  unfold yearPath at h
  have h2 := List.append_cancel_left h
  have h3 := List.append_cancel_left h2
  have hlen : (natToStr y).length = (natToStr y').length := by
    have := congrArg List.length h3
    simp only [List.length_append] at this
    omega
  exact natToStr_injective (List.append_inj_left h3 hlen)

theorem read_pk_congr {k : PK} {st st' : Store L}
    (h : getBlob st (pk_to_blob_name k.1 k.2) = getBlob st' (pk_to_blob_name k.1 k.2)) :
    read_pk k st = read_pk k st' := by
  unfold read_pk
  rw [h]

theorem aggLoop_cons (keysOf : Nat → List PK) (y : Nat) (ys : List Nat) (st : Store L) :
    aggLoop keysOf (y :: ys) st
      = match yearMerge (keysOf y) st with
        | none => (st, false)
        | some legs =>
          aggLoop keysOf ys (putBlob st (yearPath y) (Content.legs legs)) := rfl

theorem aggLoop_fail (keysOf : Nat → List PK) (y : Nat) (k : PK) (st0 : Store L)
    (hk : k ∈ keysOf y) (hfail : read_pk k st0 = none) :
    ∀ (ys : List Nat) (st : Store L), y ∈ ys →
      getBlob st (pk_to_blob_name k.1 k.2) = getBlob st0 (pk_to_blob_name k.1 k.2) →
      (aggLoop keysOf ys st).2 = false ∧
      getBlob (aggLoop keysOf ys st).1 (yearPath y) = getBlob st (yearPath y) ∧
      getBlob (aggLoop keysOf ys st).1 statusPath = getBlob st statusPath := by
  intro ys
  induction ys with
  | nil => intro st hy; cases hy
  | cons y' rest ih =>
    intro st hy hinv
    have hreadk : read_pk k st = none := by
      rw [read_pk_congr hinv, hfail]
    rw [aggLoop_cons]
    by_cases hy' : y' = y
    · subst hy'
      rw [show yearMerge (keysOf y') st = none from by
        unfold yearMerge
        rw [traverseOpt_eq_none hk hreadk]
        rfl]
      exact ⟨rfl, rfl, rfl⟩
    · have hyrest : y ∈ rest := by
        rcases List.mem_cons.mp hy with h | h
        · exact absurd h.symm hy'
        · exact h
      cases htr : yearMerge (keysOf y') st with
      | none => exact ⟨rfl, rfl, rfl⟩
      | some legs =>
        have hinv' : getBlob (putBlob st (yearPath y') (Content.legs legs))
            (pk_to_blob_name k.1 k.2) = getBlob st0 (pk_to_blob_name k.1 k.2) := by
          rw [getBlob_putBlob_other st (yearPath_ne_encode y' k.1 k.2) _]
          exact hinv
        obtain ⟨h1, h2, h3⟩ := ih _ hyrest hinv'
        refine ⟨h1, ?_, ?_⟩
        · show getBlob (aggLoop keysOf rest
              (putBlob st (yearPath y') (Content.legs legs))).1 (yearPath y)
            = getBlob st (yearPath y)
          rw [h2, getBlob_putBlob_other st (fun heq => hy' (yearPath_injective heq)) _]
        · show getBlob (aggLoop keysOf rest
              (putBlob st (yearPath y') (Content.legs legs))).1 statusPath
            = getBlob st statusPath
          rw [h3, getBlob_putBlob_other st
            (fun heq => (statusPath_ne_yearPath y') heq.symm) _]

/-- C5: fail-fast aggregation — if a completed partition's blob of year `y` is
corrupted (does not deserialize), the aggregation run fails, the yearly
aggregate for `y` is not written, and the stored status document is left
unchanged. Completion is re-scanned from the store and intersected with the
required set, exactly as `aggregate` computes it. -/
theorem aggregate_fail_fast_atomic (st0 : Store L) (required scanned : Finset PK)
    (keysOf : Nat → List PK) (yearOrder : List Nat) (k : PK)
    (_hscan : scanStore st0 = some scanned)
    (hk : k ∈ scanned.filter (· ∈ required))
    (hcorrupt : getBlob st0 (pk_to_blob_name k.1 k.2) = some Content.raw)
    (hkeys : (keysOf k.2.year).toFinset
      = completedOfYear (scanned.filter (· ∈ required)) k.2.year)
    (hyears : yearOrder.toFinset
      = (scanned.filter (· ∈ required)).image (fun j => j.2.year)) :
    (aggLoop keysOf yearOrder st0).2 = false ∧
    getBlob (aggLoop keysOf yearOrder st0).1 (yearPath k.2.year)
      = getBlob st0 (yearPath k.2.year) ∧
    getBlob (aggLoop keysOf yearOrder st0).1 statusPath = getBlob st0 statusPath := by
  have hkmem : k ∈ keysOf k.2.year := by
    rw [← List.mem_toFinset, hkeys]
    unfold completedOfYear
    rw [Finset.mem_filter]
    exact ⟨hk, rfl⟩
  have hymem : k.2.year ∈ yearOrder := by
    rw [← List.mem_toFinset, hyears]
    exact Finset.mem_image_of_mem _ hk
  have hfail : read_pk k st0 = none := by
    unfold read_pk
    rw [hcorrupt]
  exact aggLoop_fail keysOf k.2.year k st0 hkmem hfail yearOrder st0 hymem rfl

def w5k : PK := ("aaa".data, ⟨2023, 1⟩)

def w5store : Store Nat := [(pk_to_blob_name "aaa".data ⟨2023, 1⟩, Content.raw)]

def w5keysOf : Nat → List PK := fun _ => [w5k]

/-- Witness for C5 at a concrete store holding one corrupted completed blob. -/
theorem aggregate_fail_fast_atomic_witness :
    getBlob w5store (pk_to_blob_name w5k.1 w5k.2) = some Content.raw ∧
    ((aggLoop w5keysOf [2023] w5store).2 = false ∧
      getBlob (aggLoop w5keysOf [2023] w5store).1 (yearPath w5k.2.year)
        = getBlob w5store (yearPath w5k.2.year) ∧
      getBlob (aggLoop w5keysOf [2023] w5store).1 statusPath = getBlob w5store statusPath) :=
  ⟨by decide, aggregate_fail_fast_atomic w5store {w5k} {w5k} w5keysOf [2023] w5k
    (by decide) (by decide) (by decide) (by decide) (by decide)⟩

/-- C4: yearly aggregation correctness — when every completed partition of the
year reads back (contents given by `contents`), the merged year blob exists
and contains exactly the union of those partitions' leg records: every record
of every partition appears (no omissions), nothing else appears, there are no
duplicates (given pairwise-disjoint, duplicate-free partitions), and any
read-completion order (permutation of the key list) yields the same content
up to permutation. -/
theorem yearly_aggregate_correct (st : Store L) (keys : List PK) (contents : PK → List L)
    (hread : ∀ j ∈ keys, read_pk j st = some (contents j))
    (hnd : ∀ j ∈ keys, (contents j).Nodup)
    (hdisj : keys.Pairwise (fun a b => ∀ x ∈ contents a, x ∉ contents b)) :
    ∃ legs, yearMerge keys st = some legs ∧
      (∀ x, x ∈ legs ↔ ∃ j ∈ keys, x ∈ contents j) ∧
      legs.Nodup ∧
      ∀ keys', keys'.Perm keys →
        ∃ legs', yearMerge keys' st = some legs' ∧ legs'.Perm legs := by
  have hmerge : ∀ ks : List PK, (∀ j ∈ ks, read_pk j st = some (contents j)) →
      yearMerge ks st = some (ks.map contents).flatten := by
    intro ks hks
    unfold yearMerge
    rw [traverseOpt_eq_some hks]
    rfl
  refine ⟨(keys.map contents).flatten, hmerge keys hread, ?_, ?_, ?_⟩
  · intro x
    rw [List.mem_flatten]
    constructor
    · rintro ⟨l, hl, hx⟩
      obtain ⟨j, hj, rfl⟩ := List.mem_map.mp hl
      exact ⟨j, hj, hx⟩
    · rintro ⟨j, hj, hx⟩
      exact ⟨contents j, List.mem_map.mpr ⟨j, hj, rfl⟩, hx⟩
  · rw [List.nodup_flatten]
    refine ⟨?_, ?_⟩
    · intro l hl
      obtain ⟨j, hj, rfl⟩ := List.mem_map.mp hl
      exact hnd j hj
    · rw [List.pairwise_map]
      exact hdisj.imp (fun {a b} hab x hxa hxb => hab x hxa hxb)
  · intro keys' hperm
    refine ⟨(keys'.map contents).flatten,
      hmerge keys' (fun j hj => hread j (hperm.mem_iff.mp hj)), ?_⟩
    exact (hperm.map contents).flatten

def w4ka : PK := ("aaa".data, ⟨2023, 1⟩)

def w4kb : PK := ("bbb".data, ⟨2023, 2⟩)

def w4contents : PK → List Nat := fun j => if j = w4ka then [1, 2] else [3]

def w4store : Store Nat :=
  [(pk_to_blob_name "aaa".data ⟨2023, 1⟩, Content.legs [1, 2]),
   (pk_to_blob_name "bbb".data ⟨2023, 2⟩, Content.legs [3])]

/-- Witness for C4 at a concrete two-partition year. -/
theorem yearly_aggregate_correct_witness :
    (∀ j ∈ [w4ka, w4kb], read_pk j w4store = some (w4contents j)) ∧
    ∃ legs, yearMerge [w4ka, w4kb] w4store = some legs ∧
      (∀ x, x ∈ legs ↔ ∃ j ∈ [w4ka, w4kb], x ∈ w4contents j) ∧
      legs.Nodup ∧
      ∀ keys', keys'.Perm [w4ka, w4kb] →
        ∃ legs', yearMerge keys' w4store = some legs' ∧ legs'.Perm legs :=
  ⟨by decide, yearly_aggregate_correct w4store [w4ka, w4kb] w4contents
    (by decide) (by decide) (by decide)⟩

/-! ### Deterministic execution order (v2 `main`) -/

/-- Byte-lexicographic comparison of identifier strings (Rust `Ord` on str). -/
def strLe : Str → Str → Bool
  | [], _ => true
  | _ :: _, [] => false
  | a :: as, b :: bs => if a < b then true else if b < a then false else strLe as bs

/-- Chronological comparison of months (Rust `Ord` on `time::Date`, whose
year component dominates, then the month; partition dates share day 1). -/
def monthLe (d d' : MonthDate) : Bool :=
  if d.year < d'.year then true
  else if d'.year < d.year then false
  else d.month ≤ d'.month

/-- The sort key of `main`: `(date, icao)` compared lexicographically —
primary key the month ascending, secondary key the identifier ascending. -/
def pkLe (a b : PK) : Bool :=
  if a.2 = b.2 then strLe a.1 b.1 else monthLe a.2 b.2

theorem strLe_total (a b : Str) : strLe a b = true ∨ strLe b a = true := by
  induction a generalizing b with
  | nil => left; rfl
  | cons x xs ih =>
    cases b with
    | nil => right; rfl
    | cons y ys =>
      unfold strLe
      rcases lt_trichotomy x y with hlt | heq | hgt
      · left
        rw [if_pos hlt]
      · subst heq
        simp only [lt_irrefl, if_false]
        exact ih ys
      · right
        rw [if_pos hgt]

theorem strLe_trans {a b c : Str} (hab : strLe a b = true) (hbc : strLe b c = true) :
    strLe a c = true := by
  induction a generalizing b c with
  | nil => rfl
  | cons x xs ih =>
    cases b with
    | nil => cases hab
    | cons y ys =>
      cases c with
      | nil => cases hbc
      | cons z zs =>
        unfold strLe at hab hbc ⊢
        by_cases hxy : x < y
        · by_cases hyz : y < z
          · rw [if_pos (lt_trans hxy hyz)]
          · by_cases hzy : z < y
            · rw [if_neg hyz, if_pos hzy] at hbc; cases hbc
            · have : y = z := le_antisymm (not_lt.mp hzy) (not_lt.mp hyz)
              rw [if_pos (this ▸ hxy)]
        · by_cases hyx : y < x
          · rw [if_neg hxy, if_pos hyx] at hab; cases hab
          · have hxyeq : x = y := le_antisymm (not_lt.mp hyx) (not_lt.mp hxy)
            subst hxyeq
            rw [if_neg hxy, if_neg hyx] at hab
            by_cases hyz : x < z
            · rw [if_pos hyz]
            · by_cases hzy : z < x
              · rw [if_neg hyz, if_pos hzy] at hbc; cases hbc
              · rw [if_neg hyz, if_neg hzy] at hbc ⊢
                exact ih hab hbc

theorem strLe_antisymm {a b : Str} (hab : strLe a b = true) (hba : strLe b a = true) :
    a = b := by
  induction a generalizing b with
  | nil => cases b with
    | nil => rfl
    | cons y ys => cases hba
  | cons x xs ih =>
    cases b with
    | nil => cases hab
    | cons y ys =>
      unfold strLe at hab hba
      by_cases hxy : x < y
      · rw [if_neg (lt_asymm hxy), if_pos hxy] at hba; cases hba
      · by_cases hyx : y < x
        · rw [if_neg hxy, if_pos hyx] at hab; cases hab
        · have hxyeq : x = y := le_antisymm (not_lt.mp hyx) (not_lt.mp hxy)
          subst hxyeq
          rw [if_neg hxy, if_neg hxy] at hab hba
          rw [ih hab hba]

theorem monthLe_iff (d d' : MonthDate) :
    monthLe d d' = true ↔ d.year < d'.year ∨ (d.year = d'.year ∧ d.month ≤ d'.month) := by
  unfold monthLe
  split
  · rename_i h
    exact iff_of_true rfl (Or.inl h)
  · rename_i h
    split
    · rename_i h2
      apply iff_of_false (by simp)
      omega
    · rename_i h2
      rw [decide_eq_true_eq]
      omega

theorem monthLe_total (d d' : MonthDate) : monthLe d d' = true ∨ monthLe d' d = true := by
  rw [monthLe_iff, monthLe_iff]
  omega

theorem monthLe_trans {a b c : MonthDate} (hab : monthLe a b = true)
    (hbc : monthLe b c = true) : monthLe a c = true := by
  rw [monthLe_iff] at hab hbc ⊢
  omega

theorem monthLe_antisymm {a b : MonthDate} (hab : monthLe a b = true)
    (hba : monthLe b a = true) : a = b := by
  rw [monthLe_iff] at hab hba
  cases a with
  | mk ya ma =>
    cases b with
    | mk yb mb =>
      simp only at hab hba
      simp only [MonthDate.mk.injEq]
      omega

theorem pkLe_total (a b : PK) : pkLe a b = true ∨ pkLe b a = true := by
  unfold pkLe
  by_cases h : a.2 = b.2
  · rw [if_pos h, if_pos h.symm]
    exact strLe_total a.1 b.1
  · rw [if_neg h, if_neg (fun hh => h hh.symm)]
    exact monthLe_total a.2 b.2

theorem pkLe_trans {a b c : PK} (hab : pkLe a b = true) (hbc : pkLe b c = true) :
    pkLe a c = true := by
  unfold pkLe at hab hbc ⊢
  by_cases h1 : a.2 = b.2
  · by_cases h2 : b.2 = c.2
    · rw [if_pos h1] at hab
      rw [if_pos h2] at hbc
      rw [if_pos (h1.trans h2)]
      exact strLe_trans hab hbc
    · rw [if_neg h2] at hbc
      rw [if_neg (h1 ▸ h2), h1]
      exact hbc
  · by_cases h2 : b.2 = c.2
    · rw [if_neg h1] at hab
      rw [if_neg (h2 ▸ h1), ← h2]
      exact hab
    · rw [if_neg h1] at hab
      rw [if_neg h2] at hbc
      have hac : monthLe a.2 c.2 = true := monthLe_trans hab hbc
      have hne : a.2 ≠ c.2 := by
        intro heq
        exact h1 (monthLe_antisymm hab (heq ▸ hbc))
      rw [if_neg hne]
      exact hac

theorem pkLe_antisymm {a b : PK} (hab : pkLe a b = true) (hba : pkLe b a = true) :
    a = b := by
  unfold pkLe at hab hba
  by_cases h : a.2 = b.2
  · rw [if_pos h] at hab
    rw [if_pos h.symm] at hba
    exact Prod.ext (strLe_antisymm hab hba) h
  · rw [if_neg h] at hab
    rw [if_neg (fun hh => h hh.symm)] at hba
    exact absurd (monthLe_antisymm hab hba) h

/-- One insertion step of the order `main` imposes on Todo. -/
def insertPK (a : PK) : List PK → List PK
  | [] => [a]
  | b :: l => if pkLe a b then a :: b :: l else b :: insertPK a l

/-- The embedding of `todo.sort_unstable_by_key(|(icao, date)| (date, icao))`
of `src/bin/etl_legs.rs` as an insertion sort: only sortedness and the
permutation property matter, and distinct keys make the result unique. -/
def sortTodo (l : List PK) : List PK := l.foldr insertPK []

theorem insertPK_perm (a : PK) (l : List PK) : (insertPK a l).Perm (a :: l) := by
  induction l with
  | nil => exact List.Perm.refl _
  | cons b t ih =>
    unfold insertPK
    split
    · exact List.Perm.refl _
    · exact (ih.cons b).trans (List.Perm.swap a b t)

theorem sortTodo_perm (l : List PK) : (sortTodo l).Perm l := by
  induction l with
  | nil => exact List.Perm.refl _
  | cons a t ih =>
    exact (insertPK_perm a (sortTodo t)).trans (ih.cons a)

theorem sorted_insertPK {a : PK} {l : List PK}
    (hs : l.Pairwise (fun x y => pkLe x y = true)) :
    (insertPK a l).Pairwise (fun x y => pkLe x y = true) := by
  induction l with
  | nil => simp [insertPK]
  | cons b t ih =>
    unfold insertPK
    split
    · rename_i hab
      refine List.Pairwise.cons ?_ hs
      intro x hx
      rcases List.mem_cons.mp hx with rfl | hxt
      · exact hab
      · exact pkLe_trans hab ((List.pairwise_cons.mp hs).1 x hxt)
    · rename_i hab
      have hba : pkLe b a = true := (pkLe_total a b).resolve_left hab
      refine List.Pairwise.cons ?_ (ih (List.pairwise_cons.mp hs).2)
      intro x hx
      rcases List.mem_cons.mp ((insertPK_perm a t).mem_iff.mp hx) with rfl | hxt
      · exact hba
      · exact (List.pairwise_cons.mp hs).1 x hxt

theorem sortTodo_sorted (l : List PK) :
    (sortTodo l).Pairwise (fun x y => pkLe x y = true) := by
  induction l with
  | nil => exact List.Pairwise.nil
  | cons a t ih => exact sorted_insertPK ih

theorem sortTodo_eq_of_perm {l₁ l₂ : List PK} (hp : l₁.Perm l₂) :
    sortTodo l₁ = sortTodo l₂ := by
  haveI : IsAntisymm PK (fun x y => pkLe x y = true) := ⟨fun a b => pkLe_antisymm⟩
  exact List.eq_of_perm_of_sorted
    ((sortTodo_perm l₁).trans (hp.trans (sortTodo_perm l₂).symm))
    (sortTodo_sorted l₁) (sortTodo_sorted l₂)

/-- C7: deterministic execution order — before executing, `main` sorts Todo by
`(date, icao)`: the submitted sequence is ordered with primary key the month
ascending and secondary key the identifier ascending (that is what `pkLe`
compares), it is a permutation of Todo, and it is identical across runs for
the same Todo set, whatever iteration order the hash set produced. -/
theorem todo_order_deterministic (l₁ l₂ : List PK)
    (h₁ : l₁.Nodup) (h₂ : l₂.Nodup) (h : l₁.toFinset = l₂.toFinset) :
    sortTodo l₁ = sortTodo l₂ ∧ (sortTodo l₁).Perm l₁ ∧
    (sortTodo l₁).Pairwise (fun a b => pkLe a b = true) :=
  ⟨sortTodo_eq_of_perm (List.perm_of_nodup_nodup_toFinset_eq h₁ h₂ h),
   sortTodo_perm l₁, sortTodo_sorted l₁⟩

def w7k1 : PK := ("07c1a2".data, ⟨2023, 2⟩)

def w7k2 : PK := ("06b9f4".data, ⟨2023, 1⟩)

/-- Witness for C7 at a concrete two-element Todo enumerated in two orders. -/
theorem todo_order_deterministic_witness :
    ([w7k1, w7k2] : List PK).Nodup ∧
    (sortTodo [w7k1, w7k2] = sortTodo [w7k2, w7k1] ∧
      (sortTodo [w7k1, w7k2]).Perm [w7k1, w7k2] ∧
      (sortTodo [w7k1, w7k2]).Pairwise (fun a b => pkLe a b = true)) :=
  ⟨by decide, todo_order_deterministic [w7k1, w7k2] [w7k2, w7k1]
    (by decide) (by decide) (by decide)⟩

/-! ### Status counts (v2 `aggregate`) -/

/-- The `Metadata` struct of `src/bin/etl_legs.rs` (the URL field is omitted:
it carries no invariant). -/
structure Metadata where
  icao_months_to_process : Nat
  icao_months_processed : Nat
deriving DecidableEq, Repr

/-- `completed` at the top of `aggregate`: the scanned keys filtered to the
required set. -/
def completedOf (required scanned : Finset PK) : Finset PK :=
  scanned.filter (· ∈ required)

/-- `required_by_year[y]`: the required keys of year `y`. -/
def requiredOfYear (required : Finset PK) (y : Nat) : Finset PK :=
  required.filter (fun k => k.2.year = y)

/-- The status entry `aggregate` inserts for year `y`:
`icao_months_to_process = required_by_year[year].len()` and
`icao_months_processed = completed.len()` of the year's completed group. -/
def metadataFor (required scanned : Finset PK) (y : Nat) : Metadata :=
  { icao_months_to_process := (requiredOfYear required y).card,
    icao_months_processed := (completedOfYear (completedOf required scanned) y).card }

/-- C9: status-count invariant — in every year's status entry the processed
count is at most the to-process count, because the completed set is
intersected with the required set before grouping by year. -/
theorem status_counts_invariant (required scanned : Finset PK) (y : Nat) :
    (metadataFor required scanned y).icao_months_processed
      ≤ (metadataFor required scanned y).icao_months_to_process := by
  apply Finset.card_le_card
  intro k hk
  unfold completedOfYear completedOf at hk
  rw [Finset.mem_filter] at hk
  obtain ⟨hk1, hk2⟩ := hk
  rw [Finset.mem_filter] at hk1
  unfold requiredOfYear
  rw [Finset.mem_filter]
  exact ⟨hk1.2, hk2⟩

/-! ### The bounded task executor -/

/-- Modelled from the spec (§4.5): the bounded task executor is
`futures::stream::iter(tasks).buffered(N)` — an external crate combinator;
the source only chooses the ceiling (50 and 100 in `src/bin/etl_legs.rs`, 20
in `examples/etl_legs.rs`). State of one batch: tasks not yet started, tasks
in flight, tasks finished. -/
structure ExecState (τ : Type) where
  pending : List τ
  inflight : List τ
  finished : List τ

/-- One scheduler step of `buffered(N)`: start the next pending task while
fewer than N are in flight, or complete any in-flight task. -/
inductive ExecStep (N : Nat) : ExecState τ → ExecState τ → Prop
  | start (t : τ) (p i f : List τ) : i.length < N →
      ExecStep N ⟨t :: p, i, f⟩ ⟨p, t :: i, f⟩
  | finish (t : τ) (p i₁ i₂ f : List τ) :
      ExecStep N ⟨p, i₁ ++ t :: i₂, f⟩ ⟨p, i₁ ++ i₂, t :: f⟩

/-- The states the executor can reach from an initial batch of tasks. -/
def ExecReachable (N : Nat) (tasks : List τ) (s : ExecState τ) : Prop :=
  Relation.ReflTransGen (ExecStep N) ⟨tasks, [], []⟩ s

/-- C8: concurrency bound — in every state the bounded executor can reach
from a batch, at most N tasks are in flight at once. -/
theorem executor_inflight_bounded (N : Nat) (tasks : List τ) (s : ExecState τ)
    (h : ExecReachable N tasks s) : s.inflight.length ≤ N := by
  induction h with
  | refl => simp
  | tail _ hstep ih =>
    cases hstep with
    | start t p i f hi => exact hi
    | finish t p i₁ i₂ f =>
      simp only [List.length_append, List.length_cons] at ih ⊢
      omega

/-- Witness for C8: a concrete two-step schedule of a three-task batch under
ceiling 50. -/
theorem executor_inflight_bounded_witness :
    ExecReachable 50 [0, 1, 2] (⟨[2], [1, 0], []⟩ : ExecState Nat) ∧
    (⟨[2], [1, 0], []⟩ : ExecState Nat).inflight.length ≤ 50 :=
  have hreach : ExecReachable 50 [0, 1, 2] (⟨[2], [1, 0], []⟩ : ExecState Nat) :=
    Relation.ReflTransGen.tail
      (Relation.ReflTransGen.tail Relation.ReflTransGen.refl
        (ExecStep.start 0 [1, 2] [] [] (by decide)))
      (ExecStep.start 1 [2] [0] [] (by decide))
  ⟨hreach, executor_inflight_bounded 50 [0, 1, 2] _ hreach⟩

/-! ### The v1 pipeline (`examples/etl_legs.rs`): read-presence precondition -/

/-- `static DATABASE: &str = "leg/v1/data/"` from `examples/etl_legs.rs`. -/
def DATABASE_V1 : Str := "leg/v1/data/".data

/-- The literal filename ending every v1 partition path. -/
def DATACSV : Str := "data.csv".data

/-- The v1 partition path built inline by `write` and `read` of
`examples/etl_legs.rs`:
`format!("{DATABASE}icao_number={icao_number}/month={}/data.csv", month_to_part(&month))`
(fields in the opposite order to v2, and a `.csv` filename). -/
def v1_blob_name (icao : Str) (month : MonthDate) : Str :=
  DATABASE_V1 ++ "icao_number=".data ++ icao ++ "/month=".data ++ month_to_part month
    ++ "/".data ++ DATACSV

/-- Modelled from the spec: `flights::blob_name_to_pk(DATABASE, blob)` used by
`existing` of `examples/etl_legs.rs` (repository code outside `src/`) —
hive-decode the path between the given prefix and the filename into the
(entity, month) key; failure is a panic. -/
def v1_blob_name_to_pk (blob : Str) : Option PK :=
  match findVal "icao_number".data
      (hive_to_map (slice_between blob DATABASE_V1.length DATACSV.length)),
    findVal "month".data
      (hive_to_map (slice_between blob DATABASE_V1.length DATACSV.length)) with
  | some icao, some m => (parse_month m).map (fun d => (icao, d))
  | _, _ => none

/-- Decoding an encoder-produced v1 path recovers the key. -/
theorem v1_decode_encode {icao : Str} (d : MonthDate) (h : '/' ∉ icao) :
    v1_blob_name_to_pk (v1_blob_name icao d) = some (icao, d) := by
  have hmp : ∀ a ∈ month_to_part d, a ≠ '/' := fun a ha => (month_to_part_not_special ha).1
  have hblob : v1_blob_name icao d
      = DATABASE_V1 ++ (("icao_number".data ++ '=' :: icao)
        ++ '/' :: (("month".data ++ '=' :: month_to_part d) ++ '/' :: DATACSV)) := by
    unfold v1_blob_name
    simp [List.append_assoc]
  have hinner : slice_between (v1_blob_name icao d) DATABASE_V1.length DATACSV.length
      = ("icao_number".data ++ '=' :: icao)
        ++ '/' :: (("month".data ++ '=' :: month_to_part d) ++ ['/']) := by
    rw [hblob]
    unfold slice_between
    rw [List.drop_left]
    have hsplit : ("icao_number".data ++ '=' :: icao)
        ++ '/' :: (("month".data ++ '=' :: month_to_part d) ++ '/' :: DATACSV)
        = (("icao_number".data ++ '=' :: icao)
          ++ '/' :: (("month".data ++ '=' :: month_to_part d) ++ ['/'])) ++ DATACSV := by
      simp [List.append_assoc]
    have hlen : (("icao_number".data ++ '=' :: icao)
        ++ '/' :: (("month".data ++ '=' :: month_to_part d) ++ '/' :: DATACSV)).length
          - DATACSV.length
        = (("icao_number".data ++ '=' :: icao)
          ++ '/' :: (("month".data ++ '=' :: month_to_part d) ++ ['/'])).length := by
      simp only [List.length_append, List.length_cons, DATACSV]
      simp
      omega
    rw [hlen, hsplit, List.take_left]
  have hseg1 : ∀ a ∈ "icao_number".data ++ '=' :: icao, a ≠ '/' := by
    intro a ha
    rcases List.mem_append.mp ha with h1 | h1
    · fin_cases h1 <;> decide
    · rcases List.mem_cons.mp h1 with rfl | h1
      · decide
      · exact fun hc => h (hc ▸ h1)
  have hseg2 : ∀ a ∈ "month".data ++ '=' :: month_to_part d, a ≠ '/' := by
    intro a ha
    rcases List.mem_append.mp ha with h1 | h1
    · fin_cases h1 <;> decide
    · rcases List.mem_cons.mp h1 with rfl | h1
      · decide
      · exact hmp a h1
  have hm1 : ∀ a ∈ ("icao_number".data : Str), a ≠ '=' := by
    intro a ha; fin_cases ha <;> decide
  have hm2 : ∀ a ∈ ("month".data : Str), a ≠ '=' := by
    intro a ha; fin_cases ha <;> decide
  have hkvs : hive_to_map (("icao_number".data ++ '=' :: icao)
      ++ '/' :: (("month".data ++ '=' :: month_to_part d) ++ ['/']))
      = [("icao_number".data, icao), ("month".data, month_to_part d)] := by
    unfold hive_to_map
    rw [show (("month".data ++ '=' :: month_to_part d) ++ ['/'] : Str)
        = ("month".data ++ '=' :: month_to_part d) ++ '/' :: [] from by simp]
    rw [splitAllAt_append hseg1, splitAllAt_append hseg2]
    rw [show splitAllAt '/' ([] : Str) = [[]] from rfl]
    simp only [List.filterMap_cons]
    rw [splitOnceAt_append hm1, splitOnceAt_append hm2]
    rfl
  unfold v1_blob_name_to_pk
  rw [hinner, hkvs]
  rw [show findVal "icao_number".data
      [("icao_number".data, icao), ("month".data, month_to_part d)] = some icao by
    simp [findVal]]
  rw [show findVal "month".data
      [("icao_number".data, icao), ("month".data, month_to_part d)]
      = some (month_to_part d) by
    simp [findVal]]
  simp [parse_month_month_to_part]

/-- `existing` of `examples/etl_legs.rs`: decode every listed blob path under
the v1 prefix and collect the keys (decode failure panics the scan). -/
def existingV1 (st : Store L) : Option (Finset PK) :=
  (traverseOpt v1_blob_name_to_pk (listUnder st DATABASE_V1)).map List.toFinset

/-- The possible outcomes of `read` of `examples/etl_legs.rs`:
`maybe_get(&key)?` followed by `.expect("File to be present")` — an absent
key is a panic rather than an error value; content that does not deserialize
is an error. -/
inductive V1Read (L : Type)
  | panicked
  | err
  | ok (ls : List L)
deriving DecidableEq

/-- `read` of `examples/etl_legs.rs` run against a store. -/
def v1_read (k : PK) (st : Store L) : V1Read L :=
  match getBlob st (v1_blob_name k.1 k.2) with
  | none => V1Read.panicked
  | some (Content.legs ls) => V1Read.ok ls
  | some Content.raw => V1Read.err

/-- Every stored path under the v1 data area is v1-encoder-produced from a
valid key (the state the v1 pipeline maintains: `write` only writes such
paths). -/
def WellFormedV1 (st : Store L) : Prop :=
  ∀ p ∈ paths st, strHasPre DATABASE_V1 p = true →
    ∃ k : PK, ValidPK k ∧ p = v1_blob_name k.1 k.2

theorem traverseOpt_mem {f : α → Option β} {l : List α} {l' : List β}
    (h : traverseOpt f l = some l') : ∀ b ∈ l', ∃ a ∈ l, f a = some b := by
  induction l generalizing l' with
  | nil =>
    cases h
    intro b hb
    cases hb
  | cons a t ih =>
    unfold traverseOpt at h
    cases hfa : f a with
    | none => rw [hfa] at h; cases h
    | some b0 =>
      rw [hfa] at h
      cases ht : traverseOpt f t with
      | none => rw [ht] at h; cases h
      | some t' =>
        rw [ht] at h
        simp only [Option.map_some', Option.some.injEq] at h
        subst h
        intro b hb
        rcases List.mem_cons.mp hb with rfl | hbt
        · exact ⟨a, by simp, hfa⟩
        · obtain ⟨a', ha', hfa'⟩ := ih ht b hbt
          exact ⟨a', by simp [ha'], hfa'⟩

theorem getBlob_isSome_of_mem_paths {st : Store L} {p : Str} (h : p ∈ paths st) :
    (getBlob st p).isSome := by
  induction st with
  | nil => cases h
  | cons e t ih =>
    show (if e.1 = p then some e.2 else getBlob t p).isSome
    by_cases he : e.1 = p
    · rw [if_pos he]; rfl
    · rw [if_neg he]
      apply ih
      rcases List.mem_cons.mp h with heq | hmem
      · exact absurd heq.symm he
      · exact hmem

theorem v1_has_pre (icao : Str) (d : MonthDate) :
    strHasPre DATABASE_V1 (v1_blob_name icao d) = true := by
  have : v1_blob_name icao d = DATABASE_V1 ++ ("icao_number=".data ++ icao
      ++ "/month=".data ++ month_to_part d ++ "/".data ++ DATACSV) := by
    unfold v1_blob_name
    simp [List.append_assoc]
  rw [this]
  exact strHasPre_append _ _

/-- C10: the v1 per-partition read panics when the key is absent instead of
returning an error; but for every key obtained from the completion scan of a
well-formed store that has not changed since the scan, the blob is present,
so the panic branch is unreachable during aggregation. -/
theorem v1_read_no_panic (st : Store L) (S : Finset PK) (k : PK)
    (hwf : WellFormedV1 st)
    (hscan : existingV1 st = some S)
    (hk : k ∈ S) :
    v1_read k st ≠ V1Read.panicked := by
  unfold existingV1 at hscan
  cases htr : traverseOpt v1_blob_name_to_pk (listUnder st DATABASE_V1) with
  | none => rw [htr] at hscan; cases hscan
  | some l =>
    rw [htr] at hscan
    simp only [Option.map_some', Option.some.injEq] at hscan
    subst hscan
    obtain ⟨p, hp, hdec⟩ := traverseOpt_mem htr k (List.mem_toFinset.mp hk)
    obtain ⟨hmem, hpre⟩ := mem_listUnder.mp hp
    obtain ⟨k', hk', rfl⟩ := hwf p hmem hpre
    rw [v1_decode_encode k'.2 hk'] at hdec
    cases hdec
    unfold v1_read
    have hsome := getBlob_isSome_of_mem_paths hmem
    cases hget : getBlob st (v1_blob_name k'.1 k'.2) with
    | none => rw [hget] at hsome; cases hsome
    | some c =>
      cases c <;> simp

def w10k : PK := ("aaa".data, ⟨2023, 1⟩)

def w10store : Store Nat := [(v1_blob_name "aaa".data ⟨2023, 1⟩, Content.legs [5])]

/-- Witness for C10 at a concrete one-blob v1 store. -/
theorem v1_read_no_panic_witness :
    existingV1 w10store = some {w10k} ∧ v1_read w10k w10store ≠ V1Read.panicked := by
  refine ⟨by decide, v1_read_no_panic w10store {w10k} w10k ?_ (by decide) (by decide)⟩
  intro p hp _
  refine ⟨w10k, by decide, ?_⟩
  exact List.mem_singleton.mp hp
